import Mathlib

/-!
Verification of the `qr` software rasterizer.

The development shallowly embeds the Rust sources:

* `rect.rs`   : the rectangle rasterizer, a state machine over two integer
                ranges (`Range<i64>`), producing the row-major point stream.
* `tri.rs`    : the triangle rasterizer, which scans the bounding box via the
                rectangle iterator and filters with a barycentric test.
* `line.rs`   : the interpolation-factor computation of the line rasterizer.
* `renderer.rs`: the generic clipping and drawing fold of `Renderer::draw`,
                and the reference implementation `SimpleRenderer`.

Numeric modelling: the crate instantiates its generic numeric parameter `T`
at `f64`.  All values reached by the claims under scrutiny are exactly
representable rationals, and every operation on them is exact, so finite
`f64` values are modelled as `Rat`.  The two places where IEEE special
values arise (division by a zero determinant in `tri.rs`, the reciprocal of
a zero segment length and the product `0 * inf` in `line.rs`) are modelled
by the extended type `XQ` with `nan`, `pinf` and `ninf` constructors and
IEEE-faithful operations on them.  The model has a single zero; `-0.0`
only ever flips the sign of an intermediate infinity, which never changes
a containment outcome proved here.
-/

set_option maxRecDepth 8000

/-- Integer range `[lo, lo+n)` as an explicit list, by recursion on the
length.  Spec-side helper used to phrase row-major enumeration. -/
def intRangeAux : Nat → Int → List Int
  | 0, _ => []
  | n + 1, lo => lo :: intRangeAux n (lo + 1)

/-- The integers of `[lo, hi)` in increasing order. -/
def intRange (lo hi : Int) : List Int :=
  intRangeAux (hi - lo).toNat lo

/-- Modelled from the spec: the row-major enumeration of the integer grid
points of `[x0, x1) × [y0, y1)`: for `y` in `[y0, y1)`, for `x` in
`[x0, x1)`, yield `(x, y)`.  This is the spec-side sequence that the
rectangle iterator is compared against. -/
def rowMajor (x0 x1 y0 y1 : Int) : List (Int × Int) :=
  (intRange y0 y1).foldr (fun y acc => (intRange x0 x1).map (fun x => (x, y)) ++ acc) []

/-- The Rust `as` cast from `f64` to `i64`: truncation toward zero. -/
def rustTrunc (q : Rat) : Int :=
  if 0 ≤ q then ⌊q⌋ else -⌊-q⌋

/-- Model of Rust `Range<i64>`: `next` yields `lo` and advances while
`lo < hi`. -/
structure RangeI where
  lo : Int
  hi : Int
deriving DecidableEq, Repr

/-- `Iterator::next` for `Range<i64>`. -/
def RangeI.next (r : RangeI) : Option (Int × RangeI) :=
  if r.lo < r.hi then some (r.lo, ⟨r.lo + 1, r.hi⟩) else none

/-- State of `rect::IntoIter` (rect.rs): the current row range `x`, the
current row index `y`, the pristine row range `width` used to refill, and
the remaining rows `height`. -/
structure RectIter where
  x : RangeI
  y : Option Int
  width : RangeI
  height : RangeI
deriving DecidableEq, Repr

/-- `rect::IntoIter::next` (rect.rs): pull the next column of the current
row; on exhaustion pull the next row from `height`, refill the row from
`width` and pull its first column.  The emitted pair carries the `i64`
values; the final `as_` cast back to `T` is applied by the consumer in
this model. -/
def RectIter.next (s : RectIter) : Option ((Int × Int) × RectIter) :=
  match s.x.next with
  | some (xv, x2) =>
      match s.y with
      | some yv => some ((xv, yv), { s with x := x2 })
      | none => none
  | none =>
      match s.height.next with
      | some (yv, h2) =>
          match s.width.next with
          | some (xv, x2) =>
              some ((xv, yv), { x := x2, y := some yv, width := s.width, height := h2 })
          | none => none
      | none => none

/-- Upper bound on the number of points a `RectIter` state can still emit;
used as fuel. -/
def RectIter.meas (s : RectIter) : Nat :=
  (s.x.hi - s.x.lo).toNat + (s.width.hi - s.width.lo).toNat * (s.height.hi - s.height.lo).toNat

/-- Collect the remaining output of a `RectIter`, with explicit fuel. -/
def RectIter.toListF : Nat → RectIter → List (Int × Int)
  | 0, _ => []
  | f + 1, s =>
      match s.next with
      | none => []
      | some (p, s2) => p :: RectIter.toListF f s2

/-- Collect the remaining output of a `RectIter`: `meas` bounds the number
of emissions, so `meas + 1` fuel always runs the machine to completion. -/
def RectIter.toList (s : RectIter) : List (Int × Int) :=
  RectIter.toListF (s.meas + 1) s

/-- `Rectangle` (rect.rs): four `T` bounds, `T` instantiated at `f64` and
modelled as `Rat`. -/
structure Rectangle where
  x0 : Rat
  x1 : Rat
  y0 : Rat
  y1 : Rat
deriving DecidableEq, Repr

/-- `Rectangle::into_iter` (rect.rs): convert the bounds with `as_` (the
truncating cast), set `width`/`height`, clone `width` into `x` and take
the first row index from `height`. -/
def Rectangle.intoIter (r : Rectangle) : RectIter :=
  let x0 := rustTrunc r.x0
  let x1 := rustTrunc r.x1
  let y0 := rustTrunc r.y0
  let y1 := rustTrunc r.y1
  let width : RangeI := ⟨x0, x1⟩
  let height0 : RangeI := ⟨y0, y1⟩
  match height0.next with
  | some (y, height) => { x := width, y := some y, width := width, height := height }
  | none => { x := width, y := none, width := width, height := height0 }

/-- The full point stream of a `Rectangle` drawable, as `i64` pairs. -/
def Rectangle.points (r : Rectangle) : List (Int × Int) :=
  r.intoIter.toList

-- Basic facts about the helpers.

theorem intRangeAux_length (n : Nat) : ∀ lo, (intRangeAux n lo).length = n := by
  induction n with
  | zero => intro lo; rfl
  | succ n ih => intro lo; simp [intRangeAux, ih]

theorem mem_intRangeAux (n : Nat) :
    ∀ lo x, x ∈ intRangeAux n lo ↔ lo ≤ x ∧ x < lo + n := by
  induction n with
  | zero => intro lo x; simp [intRangeAux]
  | succ n ih =>
      intro lo x
      simp [intRangeAux, ih]
      omega

theorem intRange_cons {lo hi : Int} (h : lo < hi) :
    intRange lo hi = lo :: intRange (lo + 1) hi := by
  unfold intRange
  have h1 : (hi - lo).toNat = (hi - (lo + 1)).toNat + 1 := by omega
  rw [h1]
  rfl

theorem intRange_nil {lo hi : Int} (h : hi ≤ lo) : intRange lo hi = [] := by
  unfold intRange
  have h1 : (hi - lo).toNat = 0 := by omega
  rw [h1]
  rfl

theorem intRange_length (lo hi : Int) : (intRange lo hi).length = (hi - lo).toNat := by
  unfold intRange; exact intRangeAux_length _ _

theorem mem_intRange {lo hi x : Int} : x ∈ intRange lo hi ↔ lo ≤ x ∧ x < hi := by
  unfold intRange
  rw [mem_intRangeAux]
  omega

theorem rowMajor_cons {x0 x1 y0 y1 : Int} (h : y0 < y1) :
    rowMajor x0 x1 y0 y1 =
      (intRange x0 x1).map (fun x => (x, y0)) ++ rowMajor x0 x1 (y0 + 1) y1 := by
  unfold rowMajor
  rw [intRange_cons h]
  rfl

theorem rowMajor_nil_y {x0 x1 y0 y1 : Int} (h : y1 ≤ y0) : rowMajor x0 x1 y0 y1 = [] := by
  unfold rowMajor
  rw [intRange_nil h]
  rfl

theorem rowMajor_nil_x {x0 x1 y0 y1 : Int} (h : x1 ≤ x0) : rowMajor x0 x1 y0 y1 = [] := by
  unfold rowMajor
  rw [intRange_nil h]
  induction intRange y0 y1 with
  | nil => rfl
  | cons y ys ih => simp only [List.foldr_cons, List.map_nil, List.nil_append]; exact ih

theorem rowMajor_length (x0 x1 y0 y1 : Int) :
    (rowMajor x0 x1 y0 y1).length = (x1 - x0).toNat * (y1 - y0).toNat := by
  unfold rowMajor
  rw [← intRange_length x0 x1, ← intRange_length y0 y1]
  induction intRange y0 y1 with
  | nil => simp
  | cons y ys ih => simp [ih]; ring

theorem mem_rowMajor {x0 x1 y0 y1 : Int} {p : Int × Int} :
    p ∈ rowMajor x0 x1 y0 y1 ↔ x0 ≤ p.1 ∧ p.1 < x1 ∧ y0 ≤ p.2 ∧ p.2 < y1 := by
  unfold rowMajor
  have key : ∀ ys : List Int,
      p ∈ ys.foldr (fun y acc => (intRange x0 x1).map (fun x => (x, y)) ++ acc) [] ↔
        p.1 ∈ intRange x0 x1 ∧ p.2 ∈ ys := by
    intro ys
    induction ys with
    | nil => simp
    | cons y ys ih =>
        rw [List.foldr_cons, List.mem_append, List.mem_map, ih, List.mem_cons]
        constructor
        · rintro (⟨x, hx, rfl⟩ | ⟨h1, h2⟩)
          · exact ⟨hx, Or.inl rfl⟩
          · exact ⟨h1, Or.inr h2⟩
        · rintro ⟨h1, rfl | h2⟩
          · exact Or.inl ⟨p.1, h1, rfl⟩
          · exact Or.inr ⟨h1, h2⟩
  rw [key, mem_intRange, mem_intRange]
  tauto

theorem rustTrunc_intCast (n : Int) : rustTrunc (n : Rat) = n := by
  unfold rustTrunc
  by_cases h : (0 : Rat) ≤ (n : Rat)
  · rw [if_pos h, Int.floor_intCast]
  · rw [if_neg h]
    have h2 : -((n : Int) : Rat) = ((-n : Int) : Rat) := by push_cast; ring
    rw [h2, Int.floor_intCast]
    omega

-- Termination structure of the rectangle iterator.

theorem meas_refill {W H : Nat} (hW : 1 ≤ W) :
    (W - 1) + W * (H - 1) < W * (H - 1) + W := by
  rw [Nat.add_comm (W - 1) (W * (H - 1))]
  exact Nat.add_lt_add_left (by omega) _

theorem mul_split {W H : Nat} (hH : 1 ≤ H) : W * H = W * (H - 1) + W := by
  conv_lhs => rw [show H = (H - 1) + 1 by omega]
  rw [Nat.mul_add, Nat.mul_one]

theorem RectIter.next_meas {s s2 : RectIter} {p : Int × Int}
    (h : s.next = some (p, s2)) : s2.meas < s.meas := by
  obtain ⟨⟨xlo, xhi⟩, y, ⟨wlo, whi⟩, ⟨hlo, hhi⟩⟩ := s
  by_cases hx : xlo < xhi
  · cases y with
    | some yv =>
        simp [RectIter.next, RangeI.next, hx] at h
        obtain ⟨h1, h2⟩ := h
        subst h2
        simp [RectIter.meas]
        omega
    | none => simp [RectIter.next, RangeI.next, hx] at h
  · by_cases hh : hlo < hhi
    · by_cases hw : wlo < whi
      · cases y with
        | some yv =>
            simp [RectIter.next, RangeI.next, hx, hh, hw] at h
            obtain ⟨h1, h2⟩ := h
            subst h2
            simp [RectIter.meas]
            have e1 : (whi - (wlo + 1)).toNat = (whi - wlo).toNat - 1 := by omega
            have e2 : (hhi - (hlo + 1)).toNat = (hhi - hlo).toNat - 1 := by omega
            have e3 : (xhi - xlo).toNat = 0 := by omega
            rw [e1, e2, e3,
              mul_split (show 1 ≤ (hhi - hlo).toNat by omega)]
            simpa using meas_refill (show 1 ≤ (whi - wlo).toNat by omega)
        | none =>
            simp [RectIter.next, RangeI.next, hx, hh, hw] at h
            obtain ⟨h1, h2⟩ := h
            subst h2
            simp [RectIter.meas]
            have e1 : (whi - (wlo + 1)).toNat = (whi - wlo).toNat - 1 := by omega
            have e2 : (hhi - (hlo + 1)).toNat = (hhi - hlo).toNat - 1 := by omega
            have e3 : (xhi - xlo).toNat = 0 := by omega
            rw [e1, e2, e3,
              mul_split (show 1 ≤ (hhi - hlo).toNat by omega)]
            simpa using meas_refill (show 1 ≤ (whi - wlo).toNat by omega)
      · simp [RectIter.next, RangeI.next, hx, hh, hw] at h
    · simp [RectIter.next, RangeI.next, hx, hh] at h

theorem RectIter.toListF_succ (f : Nat) (s : RectIter) :
    RectIter.toListF (f + 1) s = match s.next with
      | none => []
      | some (p, s2) => p :: RectIter.toListF f s2 := rfl

theorem RectIter.toListF_congr :
    ∀ (f g : Nat) (s : RectIter), s.meas < f → s.meas < g →
      RectIter.toListF f s = RectIter.toListF g s := by
  intro f
  induction f with
  | zero => intro g s hf; omega
  | succ f ih =>
      intro g s hf hg
      cases g with
      | zero => omega
      | succ g =>
          rw [RectIter.toListF_succ, RectIter.toListF_succ]
          cases hnext : s.next with
          | none => rfl
          | some ps =>
              obtain ⟨p, s2⟩ := ps
              have hm := RectIter.next_meas hnext
              show p :: RectIter.toListF f s2 = p :: RectIter.toListF g s2
              rw [ih g s2 (by omega) (by omega)]

theorem RectIter.toList_unfold (s : RectIter) :
    s.toList = match s.next with
      | none => []
      | some (p, s2) => p :: s2.toList := by
  cases hnext : s.next with
  | none =>
      show RectIter.toListF (s.meas + 1) s = _
      rw [RectIter.toListF_succ, hnext]
  | some ps =>
      obtain ⟨p, s2⟩ := ps
      have hm := RectIter.next_meas hnext
      show RectIter.toListF (s.meas + 1) s = _
      rw [RectIter.toListF_succ, hnext]
      show p :: RectIter.toListF s.meas s2 = p :: RectIter.toListF (s2.meas + 1) s2
      rw [RectIter.toListF_congr s.meas (s2.meas + 1) s2 (by omega) (by omega)]

theorem RectIter.toList_some {s s2 : RectIter} {p : Int × Int}
    (h : s.next = some (p, s2)) : s.toList = p :: s2.toList := by
  rw [RectIter.toList_unfold, h]

theorem RectIter.toList_none {s : RectIter} (h : s.next = none) : s.toList = [] := by
  rw [RectIter.toList_unfold, h]

theorem RectIter.toList_of_meas_zero {s : RectIter} (h : s.meas = 0) :
    s.toList = [] := by
  cases hnext : s.next with
  | none => exact RectIter.toList_none hnext
  | some ps =>
      obtain ⟨p, s2⟩ := ps
      have := RectIter.next_meas hnext
      omega

/-- Running the rectangle iterator from a mid-row state yields the rest of
the current row followed by the row-major enumeration of the remaining
rows. -/
theorem rectIter_run :
    ∀ (n : Nat) (xc xh x0 x1 yc hc hh : Int),
      RectIter.meas ⟨⟨xc, xh⟩, some yc, ⟨x0, x1⟩, ⟨hc, hh⟩⟩ ≤ n →
      RectIter.toList ⟨⟨xc, xh⟩, some yc, ⟨x0, x1⟩, ⟨hc, hh⟩⟩ =
        (intRange xc xh).map (fun x => (x, yc)) ++ rowMajor x0 x1 hc hh := by
  intro n
  induction n with
  | zero =>
      intro xc xh x0 x1 yc hc hh hle
      have hz : RectIter.meas ⟨⟨xc, xh⟩, some yc, ⟨x0, x1⟩, ⟨hc, hh⟩⟩ = 0 := by omega
      rw [RectIter.toList_of_meas_zero hz]
      simp only [RectIter.meas] at hz
      generalize hA : (x1 - x0).toNat * (hh - hc).toNat = A at hz
      have h1 : (xh - xc).toNat = 0 := by omega
      have h2 : A = 0 := by omega
      rw [← hA] at h2
      rw [intRange_nil (show xh ≤ xc by omega), List.map_nil, List.nil_append]
      rcases Nat.mul_eq_zero.mp h2 with h3 | h3
      · rw [rowMajor_nil_x (show x1 ≤ x0 by omega)]
      · rw [rowMajor_nil_y (show hh ≤ hc by omega)]
  | succ n ih =>
      intro xc xh x0 x1 yc hc hh hle
      by_cases hx : xc < xh
      · have hnext : RectIter.next ⟨⟨xc, xh⟩, some yc, ⟨x0, x1⟩, ⟨hc, hh⟩⟩ =
            some ((xc, yc), ⟨⟨xc + 1, xh⟩, some yc, ⟨x0, x1⟩, ⟨hc, hh⟩⟩) := by
          simp [RectIter.next, RangeI.next, hx]
        rw [RectIter.toList_some hnext]
        have hle2 : RectIter.meas ⟨⟨xc + 1, xh⟩, some yc, ⟨x0, x1⟩, ⟨hc, hh⟩⟩ ≤ n := by
          have hm := RectIter.next_meas hnext
          omega
        rw [ih _ _ _ _ _ _ _ hle2, intRange_cons hx]
        rfl
      · rw [intRange_nil (show xh ≤ xc by omega), List.map_nil, List.nil_append]
        by_cases hh2 : hc < hh
        · by_cases hw : x0 < x1
          · have hnext : RectIter.next ⟨⟨xc, xh⟩, some yc, ⟨x0, x1⟩, ⟨hc, hh⟩⟩ =
                some ((x0, hc), ⟨⟨x0 + 1, x1⟩, some hc, ⟨x0, x1⟩, ⟨hc + 1, hh⟩⟩) := by
              simp [RectIter.next, RangeI.next, hx, hh2, hw]
            rw [RectIter.toList_some hnext]
            have hle2 :
                RectIter.meas ⟨⟨x0 + 1, x1⟩, some hc, ⟨x0, x1⟩, ⟨hc + 1, hh⟩⟩ ≤ n := by
              have hm := RectIter.next_meas hnext
              omega
            rw [ih _ _ _ _ _ _ _ hle2]
            rw [rowMajor_cons hh2, intRange_cons hw]
            rfl
          · have hnext : RectIter.next ⟨⟨xc, xh⟩, some yc, ⟨x0, x1⟩, ⟨hc, hh⟩⟩ = none := by
              simp [RectIter.next, RangeI.next, hx, hh2, hw]
            rw [RectIter.toList_none hnext, rowMajor_nil_x (show x1 ≤ x0 by omega)]
        · have hnext : RectIter.next ⟨⟨xc, xh⟩, some yc, ⟨x0, x1⟩, ⟨hc, hh⟩⟩ = none := by
            simp [RectIter.next, RangeI.next, hx, hh2]
          rw [RectIter.toList_none hnext, rowMajor_nil_y (show hh ≤ hc by omega)]

/-- The rectangle rasterizer produces exactly the row-major enumeration of
the half-open box given by the truncated bounds. -/
theorem Rectangle.points_spec (r : Rectangle) :
    r.points = rowMajor (rustTrunc r.x0) (rustTrunc r.x1) (rustTrunc r.y0) (rustTrunc r.y1) := by
  obtain ⟨qx0, qx1, qy0, qy1⟩ := r
  show (Rectangle.intoIter ⟨qx0, qx1, qy0, qy1⟩).toList = _
  dsimp only
  by_cases hy : rustTrunc qy0 < rustTrunc qy1
  · have hiter : Rectangle.intoIter ⟨qx0, qx1, qy0, qy1⟩ =
        ⟨⟨rustTrunc qx0, rustTrunc qx1⟩, some (rustTrunc qy0),
         ⟨rustTrunc qx0, rustTrunc qx1⟩, ⟨rustTrunc qy0 + 1, rustTrunc qy1⟩⟩ := by
      simp [Rectangle.intoIter, RangeI.next, hy]
    rw [hiter, rectIter_run _ _ _ _ _ _ _ _ (le_refl _), rowMajor_cons hy]
  · have hiter : Rectangle.intoIter ⟨qx0, qx1, qy0, qy1⟩ =
        ⟨⟨rustTrunc qx0, rustTrunc qx1⟩, none,
         ⟨rustTrunc qx0, rustTrunc qx1⟩, ⟨rustTrunc qy0, rustTrunc qy1⟩⟩ := by
      simp [Rectangle.intoIter, RangeI.next, hy]
    rw [hiter, rowMajor_nil_y (show rustTrunc qy1 ≤ rustTrunc qy0 by omega)]
    by_cases hw : rustTrunc qx0 < rustTrunc qx1
    · refine RectIter.toList_none ?_
      simp [RectIter.next, RangeI.next, hw, hy]
    · refine RectIter.toList_none ?_
      simp [RectIter.next, RangeI.next, hw, hy]

/-- C3: for every rectangle with bounds (x0,x1,y0,y1): if x0 < x1 and
y0 < y1 the rasterized sequence is exactly the row-major enumeration
(x,y) for y in [y0,y1) then x in [x0,x1), starting at (x0,y0), with
exactly (x1-x0)*(y1-y0) points; reversed or zero-extent bounds yield an
empty sequence. -/
theorem rect_points_row_major :
    (∀ x0 x1 y0 y1 : Int,
        Rectangle.points ⟨((x0 : Int) : Rat), ((x1 : Int) : Rat), ((y0 : Int) : Rat), ((y1 : Int) : Rat)⟩ =
          rowMajor x0 x1 y0 y1) ∧
    (∀ x0 x1 y0 y1 : Int, x0 < x1 → y0 < y1 →
        ((Rectangle.points ⟨((x0 : Int) : Rat), ((x1 : Int) : Rat), ((y0 : Int) : Rat), ((y1 : Int) : Rat)⟩).length : Int) =
          (x1 - x0) * (y1 - y0)) ∧
    (∀ x0 x1 y0 y1 : Int, x1 ≤ x0 ∨ y1 ≤ y0 →
        Rectangle.points ⟨((x0 : Int) : Rat), ((x1 : Int) : Rat), ((y0 : Int) : Rat), ((y1 : Int) : Rat)⟩ = []) := by
  have base : ∀ x0 x1 y0 y1 : Int,
      Rectangle.points ⟨((x0 : Int) : Rat), ((x1 : Int) : Rat), ((y0 : Int) : Rat), ((y1 : Int) : Rat)⟩ =
        rowMajor x0 x1 y0 y1 := by
    intro x0 x1 y0 y1
    rw [Rectangle.points_spec]
    dsimp only
    rw [rustTrunc_intCast, rustTrunc_intCast, rustTrunc_intCast, rustTrunc_intCast]
  refine ⟨base, ?_, ?_⟩
  · intro x0 x1 y0 y1 h1 h2
    rw [base, rowMajor_length]
    push_cast [Int.toNat_of_nonneg (show (0 : Int) ≤ x1 - x0 by omega),
      Int.toNat_of_nonneg (show (0 : Int) ≤ y1 - y0 by omega)]
    ring
  · intro x0 x1 y0 y1 h
    rw [base]
    rcases h with h | h
    · exact rowMajor_nil_x h
    · exact rowMajor_nil_y h

/-- Witness for C3 at the concrete bounds of the repository test
`rect`: the 2 by 2 box, plus a reversed box. -/
theorem rect_points_row_major_witness :
    (Rectangle.points ⟨((0 : Int) : Rat), ((2 : Int) : Rat), ((0 : Int) : Rat), ((2 : Int) : Rat)⟩ =
        [(0, 0), (1, 0), (0, 1), (1, 1)]) ∧
    ((Rectangle.points ⟨((0 : Int) : Rat), ((2 : Int) : Rat), ((0 : Int) : Rat), ((2 : Int) : Rat)⟩).length : Int) =
        (2 - 0) * (2 - 0) ∧
    Rectangle.points ⟨((5 : Int) : Rat), ((3 : Int) : Rat), ((0 : Int) : Rat), ((2 : Int) : Rat)⟩ = [] :=
  ⟨(rect_points_row_major.1 0 2 0 2).trans (by decide),
   rect_points_row_major.2.1 0 2 0 2 (by decide) (by decide),
   rect_points_row_major.2.2 5 3 0 2 (Or.inl (by decide))⟩

/-- Extended value of the `f64` model: an exact finite rational, one of
the two infinities, or NaN.  Division by (the model single) zero, and the
products and sums of the results, follow the IEEE rules. -/
inductive XQ where
  | nan : XQ
  | pinf : XQ
  | ninf : XQ
  | fin : Rat → XQ
deriving DecidableEq, Repr

/-- IEEE negation on the extended values. -/
def XQ.neg : XQ → XQ
  | nan => nan
  | pinf => ninf
  | ninf => pinf
  | fin a => fin (-a)

/-- IEEE addition: NaN absorbs, opposite infinities give NaN. -/
def XQ.add : XQ → XQ → XQ
  | nan, _ => nan
  | _, nan => nan
  | pinf, ninf => nan
  | ninf, pinf => nan
  | pinf, _ => pinf
  | _, pinf => pinf
  | ninf, _ => ninf
  | _, ninf => ninf
  | fin a, fin b => fin (a + b)

/-- IEEE subtraction, as addition of the negation. -/
def XQ.sub (a b : XQ) : XQ := a.add b.neg

/-- IEEE multiplication: NaN absorbs, zero times infinity is NaN. -/
def XQ.mul : XQ → XQ → XQ
  | nan, _ => nan
  | _, nan => nan
  | pinf, pinf => pinf
  | pinf, ninf => ninf
  | ninf, pinf => ninf
  | ninf, ninf => pinf
  | pinf, fin b => if 0 < b then pinf else if b < 0 then ninf else nan
  | fin a, pinf => if 0 < a then pinf else if a < 0 then ninf else nan
  | ninf, fin b => if 0 < b then ninf else if b < 0 then pinf else nan
  | fin a, ninf => if 0 < a then ninf else if a < 0 then pinf else nan
  | fin a, fin b => fin (a * b)

/-- IEEE comparison `a <= b`: false whenever NaN is involved. -/
def XQ.ble : XQ → XQ → Bool
  | nan, _ => false
  | _, nan => false
  | ninf, _ => true
  | _, pinf => true
  | pinf, _ => false
  | _, ninf => false
  | fin a, fin b => decide (a ≤ b)

/-- IEEE division of two finite values: division by zero yields a signed
infinity, or NaN for zero over zero. -/
def XQ.divQ (a b : Rat) : XQ :=
  if b = 0 then (if 0 < a then XQ.pinf else if a < 0 then XQ.ninf else XQ.nan)
  else XQ.fin (a / b)

/-- IEEE reciprocal of a finite value: the reciprocal of zero is positive
infinity. -/
def XQ.recipQ (q : Rat) : XQ :=
  if q = 0 then XQ.pinf else XQ.fin q⁻¹

/-- `Triangle` (tri.rs): the `points: [Point2<T>; 3]` array, `T`
instantiated at `f64` and modelled as `Rat`. -/
structure Triangle where
  v1 : Rat × Rat
  v2 : Rat × Rat
  v3 : Rat × Rat
deriving DecidableEq, Repr

/-- `Triangle::det` (tri.rs): `(y2 - y3) * (x1 - x3) + (x3 - x2) * (y1 - y3)`. -/
def Triangle.det (t : Triangle) : Rat :=
  (t.v2.2 - t.v3.2) * (t.v1.1 - t.v3.1) + (t.v3.1 - t.v2.1) * (t.v1.2 - t.v3.2)

/-- The first barycentric weight computed in `tri::IntoIter::next`:
`p1 = ((y2 - y3) * (x - x3) + (x3 - x2) * (y - y3)) / det`.  The stored
`det` of the iterator state equals `t.det`, since the vertices are
immutable. -/
def Triangle.p1At (t : Triangle) (x y : Rat) : XQ :=
  XQ.divQ ((t.v2.2 - t.v3.2) * (x - t.v3.1) + (t.v3.1 - t.v2.1) * (y - t.v3.2)) t.det

/-- The second barycentric weight computed in `tri::IntoIter::next`:
`p2 = ((y3 - y1) * (x - x3) + (x1 - x3) * (y - y3)) / det`. -/
def Triangle.p2At (t : Triangle) (x y : Rat) : XQ :=
  XQ.divQ ((t.v3.2 - t.v1.2) * (x - t.v3.1) + (t.v1.1 - t.v3.1) * (y - t.v3.2)) t.det

/-- The containment test of `tri::IntoIter::next`:
`p1 >= 0 && p2 >= 0 && p1 + p2 <= 1`, with IEEE comparisons. -/
def Triangle.acceptAt (t : Triangle) (x y : Rat) : Bool :=
  XQ.ble (XQ.fin 0) (t.p1At x y) && XQ.ble (XQ.fin 0) (t.p2At x y) &&
    XQ.ble (XQ.add (t.p1At x y) (t.p2At x y)) (XQ.fin 1)

/-- The emitted weight triple `[p1, p2, p3]` with `p3 = 1 - p1 - p2`. -/
def Triangle.weightsAt (t : Triangle) (x y : Rat) : XQ × XQ × XQ :=
  (t.p1At x y, t.p2At x y, XQ.sub (XQ.sub (XQ.fin 1) (t.p1At x y)) (t.p2At x y))

/-- One candidate of the loop body of `tri::IntoIter::next`: the incoming
`i64` pair from the rectangle iterator is cast back to `f64` by `as_`,
tested, and emitted with its weights when it passes. -/
def Triangle.step (t : Triangle) (xi yi : Int) : Option ((Rat × Rat) × (XQ × XQ × XQ)) :=
  if t.acceptAt (xi : Rat) (yi : Rat)
  then some (((xi : Rat), (yi : Rat)), t.weightsAt (xi : Rat) (yi : Rat))
  else none

/-- `points[0].0.min(points[1].0).min(points[2].0)` (tri.rs). -/
def Triangle.minX (t : Triangle) : Rat := min (min t.v1.1 t.v2.1) t.v3.1

/-- `points[0].0.max(points[1].0).max(points[2].0)` (tri.rs). -/
def Triangle.maxX (t : Triangle) : Rat := max (max t.v1.1 t.v2.1) t.v3.1

/-- `points[0].1.min(points[1].1).min(points[2].1)` (tri.rs). -/
def Triangle.minY (t : Triangle) : Rat := min (min t.v1.2 t.v2.2) t.v3.2

/-- `points[0].1.max(points[1].1).max(points[2].1)` (tri.rs). -/
def Triangle.maxY (t : Triangle) : Rat := max (max t.v1.2 t.v2.2) t.v3.2

/-- The bounding rectangle handed to `Rectangle::new` in
`Triangle::into_iter`. -/
def Triangle.bboxRect (t : Triangle) : Rectangle :=
  ⟨t.minX, t.maxX, t.minY, t.maxY⟩

/-- Iterating `tri::IntoIter` to exhaustion: the loop in `next` pulls
candidates from the rectangle iterator until one passes the containment
test, so the whole output is the filtered candidate stream.  Fueled by
the rectangle measure. -/
def Triangle.loopF (t : Triangle) : Nat → RectIter → List ((Rat × Rat) × (XQ × XQ × XQ))
  | 0, _ => []
  | f + 1, s =>
      match s.next with
      | none => []
      | some ((xi, yi), s2) =>
          match t.step xi yi with
          | some out => out :: Triangle.loopF t f s2
          | none => Triangle.loopF t f s2

/-- The full output of rasterizing a triangle. -/
def Triangle.points (t : Triangle) : List ((Rat × Rat) × (XQ × XQ × XQ)) :=
  Triangle.loopF t (t.bboxRect.intoIter.meas + 1) t.bboxRect.intoIter

/-- The candidate points the triangle rasterizer enumerates: the output
of the rectangle iterator over the bounding box. -/
def Triangle.candidates (t : Triangle) : List (Int × Int) :=
  t.bboxRect.points

-- The triangle iterator as a filter of the candidate stream.

theorem Triangle.loopF_filterMap (t : Triangle) :
    ∀ (f : Nat) (s : RectIter), s.meas < f →
      Triangle.loopF t f s =
        (RectIter.toListF f s).filterMap (fun p => t.step p.1 p.2) := by
  intro f
  induction f with
  | zero => intro s h; omega
  | succ f ih =>
      intro s h
      cases hnext : s.next with
      | none => simp [Triangle.loopF, RectIter.toListF, hnext]
      | some ps =>
          obtain ⟨⟨xi, yi⟩, s2⟩ := ps
          have hm := RectIter.next_meas hnext
          simp only [Triangle.loopF, RectIter.toListF, hnext, List.filterMap_cons]
          rw [ih s2 (by omega)]
          cases hstep : t.step xi yi with
          | none => simp [hstep]
          | some out => simp [hstep]

theorem Triangle.points_eq (t : Triangle) :
    t.points = t.candidates.filterMap (fun p => t.step p.1 p.2) := by
  unfold Triangle.points Triangle.candidates Rectangle.points RectIter.toList
  exact Triangle.loopF_filterMap t _ _ (by omega)

theorem Triangle.candidates_spec (t : Triangle) :
    t.candidates =
      rowMajor (rustTrunc t.minX) (rustTrunc t.maxX) (rustTrunc t.minY) (rustTrunc t.maxY) := by
  unfold Triangle.candidates Triangle.bboxRect
  rw [Rectangle.points_spec]

theorem tri_mem_elim {t : Triangle} {p : Rat × Rat} {w : XQ × XQ × XQ}
    (h : (p, w) ∈ t.points) :
    ∃ xi yi : Int, p = ((xi : Rat), (yi : Rat)) ∧ (xi, yi) ∈ t.candidates ∧
      t.acceptAt (xi : Rat) (yi : Rat) = true ∧
      w = t.weightsAt (xi : Rat) (yi : Rat) := by
  rw [Triangle.points_eq, List.mem_filterMap] at h
  obtain ⟨⟨xi, yi⟩, hmem, hstep⟩ := h
  cases hacc : t.acceptAt (xi : Rat) (yi : Rat) with
  | false => simp [Triangle.step, hacc] at hstep
  | true =>
      simp only [Triangle.step, hacc, if_true, Option.some.injEq, Prod.mk.injEq] at hstep
      exact ⟨xi, yi, hstep.1.symm, hmem, hacc, hstep.2.symm⟩

theorem tri_mem_iff (t : Triangle) (xi yi : Int) (w : XQ × XQ × XQ) :
    (((xi : Rat), (yi : Rat)), w) ∈ t.points ↔
      ((xi, yi) ∈ t.candidates ∧ t.acceptAt (xi : Rat) (yi : Rat) = true ∧
        w = t.weightsAt (xi : Rat) (yi : Rat)) := by
  constructor
  · intro h
    obtain ⟨ai, bi, hp, hmem, hacc, hw⟩ := tri_mem_elim h
    have e1 : xi = ai := by
      have h1 := congrArg Prod.fst hp
      simp only [Prod.fst] at h1
      exact_mod_cast h1
    have e2 : yi = bi := by
      have h2 := congrArg Prod.snd hp
      simp only [Prod.snd] at h2
      exact_mod_cast h2
    subst e1; subst e2
    exact ⟨hmem, hacc, hw⟩
  · rintro ⟨hmem, hacc, rfl⟩
    rw [Triangle.points_eq, List.mem_filterMap]
    exact ⟨(xi, yi), hmem, by simp [Triangle.step, hacc]⟩

theorem acceptAt_fin {t : Triangle} {x y : Rat} (h : t.acceptAt x y = true) :
    ∃ a b : Rat, t.p1At x y = XQ.fin a ∧ t.p2At x y = XQ.fin b ∧
      0 ≤ a ∧ 0 ≤ b ∧ a + b ≤ 1 := by
  unfold Triangle.acceptAt at h
  rcases hp1 : t.p1At x y with _ | _ | _ | a <;> rw [hp1] at h <;>
    rcases hp2 : t.p2At x y with _ | _ | _ | b <;> rw [hp2] at h <;>
    simp [XQ.ble, XQ.add] at h
  exact ⟨a, b, rfl, rfl, h.1.1, h.1.2, h.2⟩

theorem weights_sum {t : Triangle} {x y : Rat} (h : t.acceptAt x y = true) :
    XQ.add (XQ.add (t.weightsAt x y).1 (t.weightsAt x y).2.1) (t.weightsAt x y).2.2 =
      XQ.fin 1 := by
  obtain ⟨a, b, h1, h2, _, _, _⟩ := acceptAt_fin h
  unfold Triangle.weightsAt
  rw [h1, h2]
  show XQ.add (XQ.add (XQ.fin a) (XQ.fin b))
      (XQ.sub (XQ.sub (XQ.fin 1) (XQ.fin a)) (XQ.fin b)) = XQ.fin 1
  simp [XQ.add, XQ.sub, XQ.neg]
  ring

/-- C4: for every triangle and every candidate point of its bounding box,
the point is emitted if and only if the containment test
`p1 >= 0 && p2 >= 0 && p1 + p2 <= 1` passes, and an emitted point carries
the weights `[p1, p2, 1 - p1 - p2]`, which sum to exactly 1. -/
theorem tri_emit_iff_weights :
    ∀ (t : Triangle) (xi yi : Int) (w : XQ × XQ × XQ),
      ((((xi : Rat), (yi : Rat)), w) ∈ t.points ↔
        ((xi, yi) ∈ t.candidates ∧ t.acceptAt (xi : Rat) (yi : Rat) = true ∧
          w = t.weightsAt (xi : Rat) (yi : Rat))) ∧
      ((((xi : Rat), (yi : Rat)), w) ∈ t.points →
        XQ.add (XQ.add w.1 w.2.1) w.2.2 = XQ.fin 1) := by
  intro t xi yi w
  refine ⟨tri_mem_iff t xi yi w, fun h => ?_⟩
  obtain ⟨hmem, hacc, hw⟩ := (tri_mem_iff t xi yi w).mp h
  rw [hw]
  exact weights_sum hacc

unseal Rat.add Rat.sub Rat.mul Rat.inv in
/-- Witness for C4 at the triangle (0,0),(3,0),(0,3) and the candidate
(0,0) with weights [1,0,0]. -/
theorem tri_emit_iff_weights_witness :
    ((((0 : Int) : Rat), ((0 : Int) : Rat)),
        ((XQ.fin 1, XQ.fin 0, XQ.fin 0) : XQ × XQ × XQ)) ∈
      Triangle.points ⟨(0, 0), (3, 0), (0, 3)⟩ ∧
    XQ.add (XQ.add (XQ.fin 1) (XQ.fin 0)) (XQ.fin 0) = XQ.fin 1 := by
  have h := tri_emit_iff_weights ⟨(0, 0), (3, 0), (0, 3)⟩ 0 0 (XQ.fin 1, XQ.fin 0, XQ.fin 0)
  have hm := (h.1).mpr ⟨by decide, by decide, by decide⟩
  exact ⟨hm, h.2 hm⟩

unseal Rat.add Rat.sub Rat.mul Rat.inv in
/-- C5: rasterizing the triangle (0,0),(3,0),(0,3) yields exactly the 8
points (0,0),(1,0),(2,0),(0,1),(1,1),(2,1),(0,2),(1,2) in that order,
whose weights scaled by 3 are [3,0,0],[2,1,0],[1,2,0],[2,0,1],[1,1,1],
[0,2,1],[1,0,2],[0,1,2]. -/
theorem tri_unit_points :
    (Triangle.points ⟨(0, 0), (3, 0), (0, 3)⟩).map
        (fun pw => (pw.1,
          (XQ.mul pw.2.1 (XQ.fin 3), XQ.mul pw.2.2.1 (XQ.fin 3), XQ.mul pw.2.2.2 (XQ.fin 3)))) =
      [((0, 0), (XQ.fin 3, XQ.fin 0, XQ.fin 0)),
       ((1, 0), (XQ.fin 2, XQ.fin 1, XQ.fin 0)),
       ((2, 0), (XQ.fin 1, XQ.fin 2, XQ.fin 0)),
       ((0, 1), (XQ.fin 2, XQ.fin 0, XQ.fin 1)),
       ((1, 1), (XQ.fin 1, XQ.fin 1, XQ.fin 1)),
       ((2, 1), (XQ.fin 0, XQ.fin 2, XQ.fin 1)),
       ((0, 2), (XQ.fin 1, XQ.fin 0, XQ.fin 2)),
       ((1, 2), (XQ.fin 0, XQ.fin 1, XQ.fin 2))] := by decide

-- A zero determinant makes both computed weights non-finite, and the
-- containment test rejects every non-finite pair.

theorem divQ_zero_cases (a : Rat) :
    XQ.divQ a 0 = XQ.pinf ∨ XQ.divQ a 0 = XQ.ninf ∨ XQ.divQ a 0 = XQ.nan := by
  unfold XQ.divQ
  rw [if_pos rfl]
  split_ifs <;> simp

theorem tri_test_nonfin {p1 p2 : XQ}
    (h1 : p1 = XQ.pinf ∨ p1 = XQ.ninf ∨ p1 = XQ.nan)
    (h2 : p2 = XQ.pinf ∨ p2 = XQ.ninf ∨ p2 = XQ.nan) :
    (XQ.ble (XQ.fin 0) p1 && XQ.ble (XQ.fin 0) p2 &&
      XQ.ble (XQ.add p1 p2) (XQ.fin 1)) = false := by
  rcases h1 with h | h | h <;> rcases h2 with g | g | g <;> subst h <;> subst g <;> decide

theorem acceptAt_det_zero {t : Triangle} (h : t.det = 0) (x y : Rat) :
    t.acceptAt x y = false := by
  unfold Triangle.acceptAt Triangle.p1At Triangle.p2At
  rw [h]
  exact tri_test_nonfin (divQ_zero_cases _) (divQ_zero_cases _)

theorem step_det_zero {t : Triangle} (h : t.det = 0) (xi yi : Int) :
    t.step xi yi = none := by
  simp [Triangle.step, acceptAt_det_zero h]

/-- C6: a degenerate triangle (zero determinant, collinear vertices)
rasterizes to the empty sequence: the division by the zero determinant
produces infinities or NaN, every candidate fails the containment test,
and iteration terminates normally. -/
theorem degenerate_tri_empty (t : Triangle) (h : t.det = 0) : t.points = [] := by
  rw [Triangle.points_eq]
  have hstep : ∀ p : Int × Int, t.step p.1 p.2 = none := fun p => step_det_zero h p.1 p.2
  generalize t.candidates = l
  induction l with
  | nil => rfl
  | cons a l ih => rw [List.filterMap_cons, hstep a]; exact ih

unseal Rat.add Rat.sub Rat.mul Rat.inv in
/-- Witness for C6 at the collinear triangle (0,0),(1,1),(2,2). -/
theorem degenerate_tri_empty_witness :
    Triangle.det ⟨(0, 0), (1, 1), (2, 2)⟩ = 0 ∧
    Triangle.points ⟨(0, 0), (1, 1), (2, 2)⟩ = [] :=
  ⟨by decide, degenerate_tri_empty ⟨(0, 0), (1, 1), (2, 2)⟩ (by decide)⟩

unseal Rat.add Rat.sub Rat.mul Rat.inv in
/-- C9: candidate pixels come only from the half-open box
[trunc min_x, trunc max_x) x [trunc min_y, trunc max_y), so a point on
the right or bottom edge of the truncated bounding box is never emitted
even when it satisfies the containment rule; vertex (3,0) of the
triangle (0,0),(3,0),(0,3) passes the test but is not emitted. -/
theorem tri_bbox_halfopen :
    (∀ (t : Triangle) (p : Rat × Rat) (w : XQ × XQ × XQ),
        (p, w) ∈ t.points →
          ∃ xi yi : Int, p = ((xi : Rat), (yi : Rat)) ∧
            rustTrunc t.minX ≤ xi ∧ xi < rustTrunc t.maxX ∧
            rustTrunc t.minY ≤ yi ∧ yi < rustTrunc t.maxY) ∧
    (Triangle.acceptAt ⟨(0, 0), (3, 0), (0, 3)⟩ ((3 : Int) : Rat) ((0 : Int) : Rat) = true ∧
      (((3 : Int) : Rat), ((0 : Int) : Rat)) ∉
        (Triangle.points ⟨(0, 0), (3, 0), (0, 3)⟩).map Prod.fst) := by
  refine ⟨?_, by decide, by decide⟩
  intro t p w h
  obtain ⟨xi, yi, hp, hmem, _, _⟩ := tri_mem_elim h
  rw [Triangle.candidates_spec, mem_rowMajor] at hmem
  exact ⟨xi, yi, hp, hmem.1, hmem.2.1, hmem.2.2.1, hmem.2.2.2⟩

unseal Rat.add Rat.sub Rat.mul Rat.inv in
/-- Witness for C9 at the emitted point (1,0) of the triangle
(0,0),(3,0),(0,3). -/
theorem tri_bbox_halfopen_witness :
    ∃ xi yi : Int,
      (((1 : Rat), (0 : Rat)) : Rat × Rat) = ((xi : Rat), (yi : Rat)) ∧
      rustTrunc (Triangle.minX ⟨(0, 0), (3, 0), (0, 3)⟩) ≤ xi ∧
      xi < rustTrunc (Triangle.maxX ⟨(0, 0), (3, 0), (0, 3)⟩) ∧
      rustTrunc (Triangle.minY ⟨(0, 0), (3, 0), (0, 3)⟩) ≤ yi ∧
      yi < rustTrunc (Triangle.maxY ⟨(0, 0), (3, 0), (0, 3)⟩) :=
  tri_bbox_halfopen.1 ⟨(0, 0), (3, 0), (0, 3)⟩ ((1 : Rat), (0 : Rat))
    (XQ.fin (2 / 3), XQ.fin (1 / 3), XQ.fin 0) (by decide)

/-- The numeric capabilities `Renderer::draw` uses from its parameter
`T : Signed + AsPrimitive<usize>`: the `is_positive` sign test and the
`as_` conversion to `usize`. -/
structure NumOps (T : Type) where
  isPositive : T → Bool
  asUsize : T → Nat

/-- The `f64` instantiation: `Signed::is_positive` for floats holds for
every non-NaN value with a clear sign bit, hence for `+0.0` and every
positive value; the exact model (single zero, no NaN coordinate values)
renders this as `0 <= q`.  `f64 as usize` truncates toward zero and
saturates at zero for negative values, which is `Int.toNat` of the
floor for the values reached here. -/
def qOps : NumOps Rat where
  isPositive := fun q => decide (0 ≤ q)
  asUsize := fun q => (⌊q⌋).toNat

/-- An integer instantiation of the same bounds (such as `i64`):
`Signed::is_positive` for integers is `0 < x`. -/
def iOps : NumOps Int where
  isPositive := fun z => decide (0 < z)
  asUsize := Int.toNat

/-- The clipping filter inside `Renderer::draw` (renderer.rs): keep a
point iff
`x.is_positive() && x.as_() < width && y.is_positive() && y.as_() < height`,
and pass the converted pair on. -/
def clipPoint (ops : NumOps T) (w h : Nat) (p : T × T) : Option (Nat × Nat) :=
  if ops.isPositive p.1 && decide (ops.asUsize p.1 < w) &&
      ops.isPositive p.2 && decide (ops.asUsize p.2 < h)
  then some (ops.asUsize p.1, ops.asUsize p.2)
  else none

/-- `SimpleRenderer` (renderer.rs): the current color, the dimensions and
the two pixel buffers. -/
structure SimpleRenderer (Px : Type) where
  color : Option Px
  width : Nat
  height : Nat
  front : List Px
  back : List Px

/-- `SimpleRenderer::new`: no color selected, both buffers allocated with
`width * height` default pixels. -/
def SimpleRenderer.new (Px : Type) [Inhabited Px] (w h : Nat) : SimpleRenderer Px :=
  { color := none, width := w, height := h,
    front := List.replicate (w * h) default, back := List.replicate (w * h) default }

/-- `put_pixel`: write `px` into the back buffer at `p.1 * width + p.0`. -/
def SimpleRenderer.putPixel (r : SimpleRenderer Px) (p : Nat × Nat) (px : Px) :
    SimpleRenderer Px :=
  { r with back := r.back.set (p.2 * r.width + p.1) px }

/-- `swap`: exchange the identities of the two buffers. -/
def SimpleRenderer.swap (r : SimpleRenderer Px) : SimpleRenderer Px :=
  { r with front := r.back, back := r.front }

/-- `get_attr`: the slot index is ignored, the current color is returned
for every slot. -/
def SimpleRenderer.getAttr (r : SimpleRenderer Px) (_attr : Nat) : Option Px :=
  r.color

/-- `set_attr`: the slot index is ignored, the value becomes the single
current color. -/
def SimpleRenderer.setAttr (r : SimpleRenderer Px) (_attr : Nat) (v : Px) :
    SimpleRenderer Px :=
  { r with color := some v }

/-- `buffer`: the published front buffer. -/
def SimpleRenderer.buffer (r : SimpleRenderer Px) : List Px := r.front

/-- What `Renderer::draw` consumes from a drawable: the declared
`vertices()` count and the point stream its iterator yields
(`Coord::point` of each item). -/
structure DrawableM where
  verts : Nat
  coords : List (Rat × Rat)

/-- A triangle as a drawable: `vertices()` is 3, and the iterator yields
the points of its rasterization. -/
def Triangle.toDrawable (t : Triangle) : DrawableM :=
  { verts := 3, coords := t.points.map Prod.fst }

/-- The inner fold of `Renderer::draw`: for every clipped point, fetch
the slot-0 attribute and write it when present; count one fragment
either way. -/
def putFold (r : SimpleRenderer Px) (pts : List (Nat × Nat)) : SimpleRenderer Px × Nat :=
  pts.foldl (fun a p =>
    (match a.1.getAttr 0 with
     | some attr => a.1.putPixel p attr
     | none => a.1,
     a.2 + 1)) (r, 0)

/-- One drawable inside the fold of `Renderer::draw`: bump the shape
count, add the declared vertices, clip the yielded points and run the
pixel-writing fold. -/
def drawStep (w h : Nat) (acc : SimpleRenderer Px × Nat × Nat × Nat) (d : DrawableM) :
    SimpleRenderer Px × Nat × Nat × Nat :=
  let res := putFold acc.1 (d.coords.filterMap (clipPoint qOps w h))
  (res.1, acc.2.1 + 1, acc.2.2.1 + d.verts, acc.2.2.2 + res.2)

/-- `Renderer::draw` at the `SimpleRenderer` instantiation (`T = f64`):
fold over the mesh and return the updated renderer together with the
`(shapes, vertices, fragments)` statistics; the Rust method always wraps
that triple in `Ok`. -/
def SimpleRenderer.draw (r : SimpleRenderer Px) (mesh : List DrawableM) :
    SimpleRenderer Px × Nat × Nat × Nat :=
  mesh.foldl (drawStep r.width r.height) (r, 0, 0, 0)

-- Counting behavior of the drawing fold.

theorem putFold_shift (pts : List (Nat × Nat)) :
    ∀ (r : SimpleRenderer Px) (k : Nat),
      pts.foldl (fun a p =>
        (match a.1.getAttr 0 with
         | some attr => a.1.putPixel p attr
         | none => a.1,
         a.2 + 1)) (r, k) = ((putFold r pts).1, k + (putFold r pts).2) := by
  induction pts with
  | nil => intro r k; simp [putFold]
  | cons p pts ih =>
      intro r k
      unfold putFold
      dsimp only [List.foldl_cons]
      cases hc : r.getAttr 0 with
      | none =>
          simp only [hc]
          rw [ih, ih]
          simp [putFold]
          omega
      | some attr =>
          simp only [hc]
          rw [ih, ih]
          simp [putFold]
          omega

theorem putFold_cons (r : SimpleRenderer Px) (p : Nat × Nat) (pts : List (Nat × Nat)) :
    putFold r (p :: pts) =
      ((putFold (match r.getAttr 0 with
                 | some attr => r.putPixel p attr
                 | none => r) pts).1,
       (putFold (match r.getAttr 0 with
                 | some attr => r.putPixel p attr
                 | none => r) pts).2 + 1) := by
  unfold putFold
  dsimp only [List.foldl_cons]
  cases hc : r.getAttr 0 with
  | none => simp only [hc]; rw [putFold_shift]; simp [putFold, Nat.add_comm]
  | some attr => simp only [hc]; rw [putFold_shift]; simp [putFold, Nat.add_comm]

theorem putFold_snd (pts : List (Nat × Nat)) :
    ∀ (r : SimpleRenderer Px), (putFold r pts).2 = pts.length := by
  induction pts with
  | nil => intro r; rfl
  | cons p pts ih =>
      intro r
      rw [putFold_cons]
      cases hc : r.getAttr 0 with
      | none => simp only [hc]; rw [ih]; rfl
      | some attr => simp only [hc]; rw [ih]; rfl

theorem putFold_color_none (pts : List (Nat × Nat)) :
    ∀ (r : SimpleRenderer Px), r.color = none → (putFold r pts).1 = r := by
  induction pts with
  | nil => intro r hr; rfl
  | cons p pts ih =>
      intro r hr
      rw [putFold_cons]
      simp only [SimpleRenderer.getAttr, hr]
      exact ih r hr

theorem draw_fold_counts (mesh : List DrawableM) :
    ∀ (w h : Nat) (r : SimpleRenderer Px) (a b c : Nat),
      (mesh.foldl (drawStep w h) (r, a, b, c)).2 =
        (a + mesh.length, b + (mesh.map DrawableM.verts).sum,
         c + (mesh.map (fun d => (d.coords.filterMap (clipPoint qOps w h)).length)).sum) := by
  induction mesh with
  | nil => intro w h r a b c; simp
  | cons d mesh ih =>
      intro w h r a b c
      dsimp only [List.foldl_cons, drawStep]
      rw [ih, putFold_snd]
      simp only [List.map_cons, List.sum_cons, List.length_cons, Prod.mk.injEq]
      refine ⟨by omega, by omega, by omega⟩

theorem draw_counts (r : SimpleRenderer Px) (mesh : List DrawableM) :
    (r.draw mesh).2 =
      (mesh.length, (mesh.map DrawableM.verts).sum,
       (mesh.map (fun d =>
         (d.coords.filterMap (clipPoint qOps r.width r.height)).length)).sum) := by
  unfold SimpleRenderer.draw
  rw [draw_fold_counts]
  simp

theorem draw_fold_color_none (mesh : List DrawableM) :
    ∀ (w h : Nat) (r : SimpleRenderer Px) (a b c : Nat), r.color = none →
      (mesh.foldl (drawStep w h) (r, a, b, c)).1 = r := by
  induction mesh with
  | nil => intro w h r a b c hr; rfl
  | cons d mesh ih =>
      intro w h r a b c hr
      dsimp only [List.foldl_cons, drawStep]
      rw [putFold_color_none _ _ hr]
      exact ih _ _ _ _ _ _ hr

/-- C7: `draw` over any finite mesh returns the triple whose first
component counts the drawables, whose second sums the declared
`vertices()` of every drawable (regardless of its on-screen pixels), and
whose third counts the clipped in-bounds points; the triple is the same
whether or not an attribute has been set. -/
theorem draw_returns_counts :
    ∀ (Px : Type) (r : SimpleRenderer Px) (mesh : List DrawableM),
      (r.draw mesh).2 =
        (mesh.length, (mesh.map DrawableM.verts).sum,
         (mesh.map (fun d =>
           (d.coords.filterMap (clipPoint qOps r.width r.height)).length)).sum) ∧
      ∀ (n : Nat) (v : Px), ((r.setAttr n v).draw mesh).2 = (r.draw mesh).2 := by
  intro Px r mesh
  refine ⟨draw_counts r mesh, fun n v => ?_⟩
  rw [draw_counts, draw_counts]
  rfl

unseal Rat.add Rat.sub Rat.mul Rat.inv in
/-- Witness for C7: a mesh of one triangle and one empty drawable drawn
into a fresh 4 by 4 renderer. -/
theorem draw_returns_counts_witness :
    ((SimpleRenderer.new Nat 4 4).draw
        [Triangle.toDrawable ⟨(0, 0), (3, 0), (0, 3)⟩, ⟨7, []⟩]).2 =
      ([Triangle.toDrawable ⟨(0, 0), (3, 0), (0, 3)⟩, (⟨7, []⟩ : DrawableM)].length,
       ([Triangle.toDrawable ⟨(0, 0), (3, 0), (0, 3)⟩, (⟨7, []⟩ : DrawableM)].map
         DrawableM.verts).sum,
       ([Triangle.toDrawable ⟨(0, 0), (3, 0), (0, 3)⟩, (⟨7, []⟩ : DrawableM)].map
         (fun d => (d.coords.filterMap (clipPoint qOps 4 4)).length)).sum) ∧
    ((SimpleRenderer.new Nat 4 4).draw
        [Triangle.toDrawable ⟨(0, 0), (3, 0), (0, 3)⟩, ⟨7, []⟩]).2 = (2, 10, 8) :=
  ⟨(draw_returns_counts Nat (SimpleRenderer.new Nat 4 4)
      [Triangle.toDrawable ⟨(0, 0), (3, 0), (0, 3)⟩, ⟨7, []⟩]).1,
   ((draw_returns_counts Nat (SimpleRenderer.new Nat 4 4)
      [Triangle.toDrawable ⟨(0, 0), (3, 0), (0, 3)⟩, ⟨7, []⟩]).1).trans (by decide)⟩

/-- C10: `SimpleRenderer` ignores the attribute slot index: `set_attr`
with any index stores the value as the single current color and
`get_attr` returns it for every index; a fresh renderer has no color, so
a `draw` before any `set_attr` leaves the renderer (both buffers
included) unchanged while still counting shapes, vertices and
fragments. -/
theorem simple_renderer_attr_slot :
    ∀ (Px : Type) (_inst : Inhabited Px) (w h m n : Nat) (v : Px)
      (r : SimpleRenderer Px) (mesh : List DrawableM),
      (SimpleRenderer.new Px w h).getAttr m = none ∧
      (r.setAttr n v).getAttr m = some v ∧
      ((SimpleRenderer.new Px w h).draw mesh).1 = SimpleRenderer.new Px w h ∧
      ((SimpleRenderer.new Px w h).draw mesh).2 =
        (mesh.length, (mesh.map DrawableM.verts).sum,
         (mesh.map (fun d => (d.coords.filterMap (clipPoint qOps w h)).length)).sum) := by
  intro Px _inst w h m n v r mesh
  refine ⟨rfl, rfl, ?_, ?_⟩
  · exact draw_fold_color_none mesh w h _ 0 0 0 rfl
  · exact draw_counts _ mesh

theorem floor_toNat_lt_iff {x : Rat} {w : Nat} (hx : 0 ≤ x) :
    ((⌊x⌋).toNat < w) ↔ x < (w : Rat) := by
  rw [Int.toNat_lt (Int.floor_nonneg.mpr hx), Int.floor_lt]
  push_cast
  exact Iff.rfl

/-- C1 (amended): in the clip of `draw`, for the f64 instantiation a
point is accepted iff `0 ≤ x < width` and `0 ≤ y < height` (so `+0.0`
coordinates are accepted), but for an integer coordinate type a point is
accepted iff `0 < x < width` and `0 < y < height`: integer
`Signed::is_positive` rejects zero, so otherwise in-range points with
`x = 0` or `y = 0` are dropped. -/
theorem clip_accept_iff :
    (∀ (w h : Nat) (x y : Rat),
        (clipPoint qOps w h (x, y)).isSome = true ↔
          (0 ≤ x ∧ x < (w : Rat) ∧ 0 ≤ y ∧ y < (h : Rat))) ∧
    (∀ (w h : Nat) (x y : Int),
        (clipPoint iOps w h (x, y)).isSome = true ↔
          (0 < x ∧ x < (w : Int) ∧ 0 < y ∧ y < (h : Int))) := by
  constructor
  · intro w h x y
    unfold clipPoint qOps
    dsimp only
    constructor
    · intro hs
      rw [Option.isSome_iff_exists] at hs
      obtain ⟨p, hp⟩ := hs
      by_cases hcond : (decide (0 ≤ x) && decide ((⌊x⌋).toNat < w) &&
          decide (0 ≤ y) && decide ((⌊y⌋).toNat < h)) = true
      · simp only [Bool.and_eq_true, decide_eq_true_eq] at hcond
        obtain ⟨⟨⟨h1, h2⟩, h3⟩, h4⟩ := hcond
        exact ⟨h1, (floor_toNat_lt_iff h1).mp h2, h3, (floor_toNat_lt_iff h3).mp h4⟩
      · rw [if_neg hcond] at hp; cases hp
    · rintro ⟨h1, h2, h3, h4⟩
      rw [if_pos]
      · rfl
      · simp only [Bool.and_eq_true, decide_eq_true_eq]
        exact ⟨⟨⟨h1, (floor_toNat_lt_iff h1).mpr h2⟩, h3⟩, (floor_toNat_lt_iff h3).mpr h4⟩
  · intro w h x y
    unfold clipPoint iOps
    dsimp only
    constructor
    · intro hs
      rw [Option.isSome_iff_exists] at hs
      obtain ⟨p, hp⟩ := hs
      by_cases hcond : (decide (0 < x) && decide (x.toNat < w) &&
          decide (0 < y) && decide (y.toNat < h)) = true
      · simp only [Bool.and_eq_true, decide_eq_true_eq] at hcond
        omega
      · rw [if_neg hcond] at hp; cases hp
    · intro hcond
      rw [if_pos]
      · rfl
      · simp only [Bool.and_eq_true, decide_eq_true_eq]
        omega

/-- Witness for C1 (amended) at the boundary point (0, 5) of a 16 by 16
viewport: accepted under f64 coordinates, rejected under integer
coordinates. -/
theorem clip_accept_iff_witness :
    (clipPoint qOps 16 16 ((0 : Rat), (5 : Rat))).isSome = true ∧
    ¬((clipPoint iOps 16 16 ((0 : Int), (5 : Int))).isSome = true) :=
  ⟨(clip_accept_iff.1 16 16 0 5).mpr (by norm_num),
   fun hs => by
    have h := (clip_accept_iff.2 16 16 0 5).mp hs
    exact absurd h.1 (by norm_num)⟩

/-- C1 counterexample: with integer coordinates the point (0, 1) is
clipped away by `draw` although `0 ≤ 0 < 16` and `0 ≤ 1 < 16`: the claim
that every coordinate type accepts in-range points with a zero component
fails, because integer `is_positive(0)` is false. -/
theorem clip_int_zero_rejected :
    clipPoint iOps 16 16 ((0 : Int), (1 : Int)) = none ∧
    ((0 : Int) ≤ 0 ∧ (0 : Int) < 16 ∧ (0 : Int) ≤ 1 ∧ (1 : Int) < 16) := by
  exact ⟨by decide, by decide⟩

unseal Rat.add Rat.sub Rat.mul Rat.inv in
/-- Witness for C10: concrete slots 3 and 5 on a 2 by 2 renderer with one
triangle drawn before any color is set. -/
theorem simple_renderer_attr_slot_witness :
    (SimpleRenderer.new Nat 2 2).getAttr 5 = none ∧
    (((SimpleRenderer.new Nat 2 2).setAttr 3 9).getAttr 5 = some 9) ∧
    ((SimpleRenderer.new Nat 2 2).draw
        [Triangle.toDrawable ⟨(0, 0), (3, 0), (0, 3)⟩]).1 = SimpleRenderer.new Nat 2 2 ∧
    ((SimpleRenderer.new Nat 2 2).draw
        [Triangle.toDrawable ⟨(0, 0), (3, 0), (0, 3)⟩]).2 =
      ([Triangle.toDrawable ⟨(0, 0), (3, 0), (0, 3)⟩].length,
       ([Triangle.toDrawable ⟨(0, 0), (3, 0), (0, 3)⟩].map DrawableM.verts).sum,
       ([Triangle.toDrawable ⟨(0, 0), (3, 0), (0, 3)⟩].map
         (fun d => (d.coords.filterMap (clipPoint qOps 2 2)).length)).sum) :=
  simple_renderer_attr_slot Nat inferInstance 2 2 5 3 9
    ((SimpleRenderer.new Nat 2 2).setAttr 3 9)
    [Triangle.toDrawable ⟨(0, 0), (3, 0), (0, 3)⟩]

-- The full-coverage drawing property (repository test `simple`).

/-- The triangle of the repository test `simple`:
vertices (0,0), (100,0), (0,100). -/
def t100 : Triangle := ⟨(0, 0), (100, 0), (0, 100)⟩

theorem divQ_ne (a : Rat) {b : Rat} (hb : b ≠ 0) : XQ.divQ a b = XQ.fin (a / b) :=
  if_neg hb

theorem t100_accept (xi yi : Int) (h1 : 0 ≤ xi) (h2 : 0 ≤ yi) (h3 : xi + yi ≤ 100) :
    Triangle.acceptAt t100 (xi : Rat) (yi : Rat) = true := by
  have hx : (0 : Rat) ≤ (xi : Rat) := by exact_mod_cast h1
  have hy : (0 : Rat) ≤ (yi : Rat) := by exact_mod_cast h2
  have hs : (xi : Rat) + (yi : Rat) ≤ 100 := by exact_mod_cast h3
  unfold Triangle.acceptAt Triangle.p1At Triangle.p2At Triangle.det t100
  dsimp only
  rw [divQ_ne _ (by norm_num), divQ_ne _ (by norm_num)]
  simp only [XQ.ble, XQ.add, Bool.and_eq_true, decide_eq_true_eq]
  refine ⟨⟨?_, ?_⟩, ?_⟩
  · apply div_nonneg _ (by norm_num)
    nlinarith
  · apply div_nonneg _ (by norm_num)
    nlinarith
  · rw [div_add_div_same, div_le_one (by norm_num)]
    nlinarith

theorem t100_covers (x y : Nat) (hx : x < 16) (hy : y < 16) :
    (x, y) ∈ (Triangle.toDrawable t100).coords.filterMap (clipPoint qOps 16 16) := by
  rw [List.mem_filterMap]
  refine ⟨((((x : Nat) : Int) : Rat), (((y : Nat) : Int) : Rat)), ?_, ?_⟩
  · unfold Triangle.toDrawable
    dsimp only
    rw [List.mem_map]
    refine ⟨(((((x : Nat) : Int) : Rat), (((y : Nat) : Int) : Rat)),
      Triangle.weightsAt t100 (((x : Nat) : Int) : Rat) (((y : Nat) : Int) : Rat)), ?_, rfl⟩
    rw [tri_mem_iff]
    refine ⟨?_, ?_, rfl⟩
    · rw [Triangle.candidates_spec]
      have e1 : rustTrunc t100.minX = 0 := by decide
      have e2 : rustTrunc t100.maxX = 100 := by decide
      have e3 : rustTrunc t100.minY = 0 := by decide
      have e4 : rustTrunc t100.maxY = 100 := by decide
      rw [e1, e2, e3, e4, mem_rowMajor]
      refine ⟨?_, ?_, ?_, ?_⟩ <;> dsimp only <;> omega
    · exact t100_accept ((x : Nat) : Int) ((y : Nat) : Int) (by omega) (by omega) (by omega)
  · unfold clipPoint qOps
    dsimp only
    have hfx : (⌊(((x : Nat) : Int) : Rat)⌋).toNat = x := by
      rw [Int.floor_intCast]; omega
    have hfy : (⌊(((y : Nat) : Int) : Rat)⌋).toNat = y := by
      rw [Int.floor_intCast]; omega
    rw [if_pos]
    · rw [hfx, hfy]
    · simp only [Bool.and_eq_true, decide_eq_true_eq]
      refine ⟨⟨⟨?_, ?_⟩, ?_⟩, ?_⟩
      · positivity
      · omega
      · positivity
      · omega

theorem foldl_set_length (w : Nat) (c : Px) (pts : List (Nat × Nat)) :
    ∀ (buf : List Px),
      (pts.foldl (fun b p => b.set (p.2 * w + p.1) c) buf).length = buf.length := by
  induction pts with
  | nil => intro buf; rfl
  | cons p pts ih =>
      intro buf
      dsimp only [List.foldl_cons]
      rw [ih, List.length_set]

theorem foldl_set_preserved (w : Nat) (c : Px) (pts : List (Nat × Nat)) :
    ∀ (buf : List Px) (idx : Nat), (∀ p ∈ pts, p.2 * w + p.1 ≠ idx) →
      (pts.foldl (fun b p => b.set (p.2 * w + p.1) c) buf)[idx]? = buf[idx]? := by
  induction pts with
  | nil => intro buf idx hnp; rfl
  | cons p pts ih =>
      intro buf idx hnp
      dsimp only [List.foldl_cons]
      rw [ih _ _ (fun q hq => hnp q (List.mem_cons_of_mem p hq))]
      exact List.getElem?_set_ne (hnp p (List.mem_cons_self p pts))

theorem foldl_set_covered (w : Nat) (c : Px) (pts : List (Nat × Nat)) :
    ∀ (buf : List Px) (idx : Nat), idx < buf.length →
      (∃ p ∈ pts, p.2 * w + p.1 = idx) →
      (pts.foldl (fun b p => b.set (p.2 * w + p.1) c) buf)[idx]? = some c := by
  induction pts with
  | nil => intro buf idx hlen hex; simp at hex
  | cons p pts ih =>
      intro buf idx hlen hex
      dsimp only [List.foldl_cons]
      by_cases hrest : ∃ q ∈ pts, q.2 * w + q.1 = idx
      · exact ih _ _ (by rw [List.length_set]; exact hlen) hrest
      · have hp : p.2 * w + p.1 = idx := by
          rcases hex with ⟨q, hq, he⟩
          rcases List.mem_cons.mp hq with rfl | hq2
          · exact he
          · exact absurd ⟨q, hq2, he⟩ hrest
        rw [foldl_set_preserved w c pts _ idx
          (fun q hq he => hrest ⟨q, hq, he⟩), hp]
        exact List.getElem?_set_self (hp ▸ hlen)

theorem putFold_color_some (pts : List (Nat × Nat)) :
    ∀ (r : SimpleRenderer Px) (c : Px), r.color = some c →
      (putFold r pts).1 =
        { r with back := pts.foldl (fun b p => b.set (p.2 * r.width + p.1) c) r.back } := by
  induction pts with
  | nil =>
      intro r c hr
      show r = _
      cases r
      rfl
  | cons p pts ih =>
      intro r c hr
      rw [putFold_cons]
      simp only [SimpleRenderer.getAttr, hr]
      dsimp only [List.foldl_cons]
      rw [ih (r.putPixel p c) c hr]
      obtain ⟨color, width, height, front, back⟩ := r
      dsimp only [SimpleRenderer.putPixel] at hr ⊢
      subst hr
      rfl

theorem draw_single_color_some (r : SimpleRenderer Px) (c : Px) (d : DrawableM)
    (hr : r.color = some c) :
    (r.draw [d]).1 =
      { r with back :=
          ((d.coords.filterMap (clipPoint qOps r.width r.height)).foldl
            (fun b p => b.set (p.2 * r.width + p.1) c) r.back) } := by
  show (putFold r (d.coords.filterMap (clipPoint qOps r.width r.height))).1 = _
  exact putFold_color_some _ r c hr

/-- The published buffer after a swap is the previous back buffer. -/
theorem swap_buffer (r : SimpleRenderer Px) : (r.swap).buffer = r.back := rfl

theorem mk_back (c0 : Option Px) (w h : Nat) (f b : List Px) :
    (SimpleRenderer.mk c0 w h f b).back = b := rfl

/-- C2: drawing the single triangle (0,0),(100,0),(0,100) into a fresh
16 by 16 `SimpleRenderer` whose attribute slot 0 holds the color `c`,
then swapping, publishes a front buffer in which every one of the 256
pixels equals `c`. -/
theorem draw_tri_fills_buffer (c : Nat) :
    (((((SimpleRenderer.new Nat 16 16).setAttr 0 c).draw
        [Triangle.toDrawable t100]).1).swap).buffer = List.replicate 256 c := by
  rw [draw_single_color_some ((SimpleRenderer.new Nat 16 16).setAttr 0 c) c
    (Triangle.toDrawable t100) rfl, swap_buffer, mk_back]
  have hw : ((SimpleRenderer.new Nat 16 16).setAttr 0 c).width = 16 := rfl
  have hh : ((SimpleRenderer.new Nat 16 16).setAttr 0 c).height = 16 := rfl
  have hb : ((SimpleRenderer.new Nat 16 16).setAttr 0 c).back = List.replicate 256 0 := rfl
  simp only [hw, hh, hb]
  apply List.ext_getElem?
  intro n
  by_cases hn : n < 256
  · have hcov : ∃ p ∈ (Triangle.toDrawable t100).coords.filterMap (clipPoint qOps 16 16),
        p.2 * 16 + p.1 = n :=
      ⟨(n % 16, n / 16), t100_covers (n % 16) (n / 16) (by omega) (by omega), by omega⟩
    rw [foldl_set_covered 16 c _ _ n (by simpa using hn) hcov,
      List.getElem?_replicate_of_lt hn]
  · rw [List.getElem?_eq_none (by rw [foldl_set_length]; simpa using hn),
      List.getElem?_eq_none (by simpa using hn)]

/-- `Line` (line.rs): the two endpoints; the Rust field `end` is renamed
`endp` because `end` is a Lean keyword.  `T = f64` modelled as `Rat`. -/
structure Line where
  start : Rat × Rat
  endp : Rat × Rat
deriving DecidableEq, Repr

/-- The squared segment length `dx * dx + dy * dy` computed in
`Line::into_iter`. -/
def Line.lenSq (l : Line) : Rat :=
  (l.endp.1 - l.start.1) * (l.endp.1 - l.start.1) +
    (l.endp.2 - l.start.2) * (l.endp.2 - l.start.2)

/-- `len_recip` as computed in `Line::into_iter`:
`(dx * dx + dy * dy).sqrt().recip()`, with no branch of any kind.  The
square root of a rational is not rational, so the IEEE square root is a
parameter `sqrtF`; the zero-length claims evaluate it only at 0, where
IEEE fixes `sqrt 0 = 0`. -/
def Line.lenRecip (sqrtF : Rat → Rat) (l : Line) : XQ :=
  XQ.recipQ (sqrtF l.lenSq)

/-- The weight pair computed in `line::IntoIter::next` for a yielded
point: `f = dist * len_recip` with
`dist = sqrt((x - sx)^2 + (y - sy)^2)`, emitted as `[f, 1 - f]`. -/
def Line.weightAt (sqrtF : Rat → Rat) (l : Line) (p : Rat × Rat) : XQ × XQ :=
  (XQ.mul (XQ.fin (sqrtF ((p.1 - l.start.1) * (p.1 - l.start.1) +
      (p.2 - l.start.2) * (p.2 - l.start.2)))) (Line.lenRecip sqrtF l),
   XQ.sub (XQ.fin 1)
     (XQ.mul (XQ.fin (sqrtF ((p.1 - l.start.1) * (p.1 - l.start.1) +
       (p.2 - l.start.2) * (p.2 - l.start.2)))) (Line.lenRecip sqrtF l)))

unseal Rat.add Rat.sub Rat.mul Rat.inv in
/-- C8 counterexample: for the zero-length line with both endpoints
(1,2), `len_recip` is computed as the reciprocal of zero and is positive
infinity, and the emitted weight pair at the start point is [NaN, NaN]:
there is no zero-length special case, the division by zero does happen
(yielding infinity, not an error).  The square root parameter is
instantiated with the identity function, which agrees with the IEEE
square root at 0, the only point evaluated. -/
theorem line_zero_len_recip_inf :
    Line.lenRecip (fun q => q) ⟨(1, 2), (1, 2)⟩ = XQ.pinf ∧
    Line.weightAt (fun q => q) ⟨(1, 2), (1, 2)⟩ (1, 2) = (XQ.nan, XQ.nan) := by
  exact ⟨by decide, by decide⟩

/-- C8 (amended): the interpolation-factor computation of the line
rasterizer has no zero-length special case: for every square root
function with `sqrt 0 = 0` and every line with `start = end`, the
computed `len_recip` is the reciprocal of zero, positive infinity, and
the weight pair emitted for the start point is `[NaN, NaN]`
(from `0 * inf`); the computation falls through IEEE special values
without raising any error. -/
theorem line_zero_len_no_guard :
    ∀ (sqrtF : Rat → Rat), sqrtF 0 = 0 →
      ∀ (l : Line), l.start = l.endp →
        Line.lenRecip sqrtF l = XQ.pinf ∧
        Line.weightAt sqrtF l l.start = (XQ.nan, XQ.nan) := by
  intro sqrtF hs l he
  have hsq : l.lenSq = 0 := by
    unfold Line.lenSq
    rw [← he]
    ring
  have h1 : Line.lenRecip sqrtF l = XQ.pinf := by
    unfold Line.lenRecip XQ.recipQ
    rw [hsq, hs, if_pos rfl]
  refine ⟨h1, ?_⟩
  unfold Line.weightAt
  have hd : (l.start.1 - l.start.1) * (l.start.1 - l.start.1) +
      (l.start.2 - l.start.2) * (l.start.2 - l.start.2) = 0 := by ring
  rw [hd, hs, h1]
  norm_num [XQ.mul, XQ.sub, XQ.neg]
  rfl

/-- Witness for C8 (amended) at the zero-length line with both endpoints
at the origin. -/
theorem line_zero_len_no_guard_witness :
    Line.lenRecip (fun q => q) ⟨(0, 0), (0, 0)⟩ = XQ.pinf ∧
    Line.weightAt (fun q => q) ⟨(0, 0), (0, 0)⟩ (0, 0) = (XQ.nan, XQ.nan) :=
  line_zero_len_no_guard (fun q => q) rfl ⟨(0, 0), (0, 0)⟩ rfl

/-- Witness for C2 at the concrete color 1, mirroring the repository test
`simple`. -/
theorem draw_tri_fills_buffer_witness :
    (((((SimpleRenderer.new Nat 16 16).setAttr 0 1).draw
        [Triangle.toDrawable t100]).1).swap).buffer = List.replicate 256 1 :=
  draw_tri_fills_buffer 1
